import Mathlib

/-!
Verification of the Pattern Detection & Severity Classification Engine
of the panther-metrics repository (src/patterns.py, src/metrics.py,
src/analysis.py), as described by its natural-language specification.

Modelling conventions (shallow embedding):
- Python strings are modelled as lists of characters (code points), so that
  splitting, lowercasing and lexicographic comparison are the structural
  operations Python performs on code-point sequences.  Case conversion,
  whitespace and digit classification are modelled on their ASCII fragments.
- Python floats (rates, thresholds, counts) are modelled as exact rationals.
- A pandas value that can be NaN (a missing rate) is modelled as Option:
  none is NaN/missing, and dropna is List.reduceOption / List.filterMap.
- pandas sort_values is modelled as a stable sort by the corresponding key
  (note: the source uses the pandas default sort kind; where every key is
  distinct, as in _build_term_order, any correct sort coincides with this).
-/

set_option linter.unusedVariables false

namespace PantherMetrics

/-- Python strings viewed as sequences of code points. -/
abbrev Str := List Char

/-- ASCII fragment of Python str.split() whitespace (space, tab, newline,
carriage return, vertical tab, form feed). -/
def pyIsSpace (c : Char) : Bool :=
  c = ' ' ∨ c = '\t' ∨ c = '\n' ∨ c = '\r' ∨ c = '\x0b' ∨ c = '\x0c'

/-- Accumulator loop for splitWs: acc holds the current token reversed. -/
def splitWsAux : Str → Str → List Str
  | [], acc => if acc = [] then [] else [acc.reverse]
  | c :: rest, acc =>
    if pyIsSpace c then
      if acc = [] then splitWsAux rest [] else acc.reverse :: splitWsAux rest []
    else splitWsAux rest (c :: acc)

/-- Python str.strip().split() as used in patterns.py line 152: split on runs
of whitespace, discarding empty tokens (the preceding strip is a no-op for
no-argument split). -/
def splitWs (s : Str) : List Str := splitWsAux s []

/-- ASCII fragment of Python str.lower() on one character. -/
def asciiLower (c : Char) : Char :=
  if 'A' ≤ c ∧ c ≤ 'Z' then Char.ofNat (c.toNat + 32) else c

/-- ASCII fragment of Python str.lower(). -/
def lowerStr (s : Str) : Str := s.map asciiLower

/-- Numeric value of an ASCII digit. -/
def digitVal (c : Char) : ℕ := c.toNat - 48

/-- Digit-sequence loop of parsePyInt, after at least one digit was read:
further digits, with single underscores permitted between digits. -/
def pyDigitsAux : Str → ℕ → Option ℕ
  | [], acc => some acc
  | '_' :: rest, acc =>
    match rest with
    | d :: rest2 =>
      if d.isDigit then pyDigitsAux rest2 (acc * 10 + digitVal d) else none
    | [] => none
  | c :: rest, acc =>
    if c.isDigit then pyDigitsAux rest (acc * 10 + digitVal c) else none

/-- Digit sequence of parsePyInt: at least one digit, then pyDigitsAux. -/
def pyDigits : Str → Option ℕ
  | c :: rest => if c.isDigit then pyDigitsAux rest (digitVal c) else none
  | [] => none

/-- Python int(s) applied to a whitespace-free token (ASCII fragment):
an optional sign followed by a digit sequence in which single underscores
may separate digits; none models the ValueError branch of
patterns.py lines 155-158. -/
def parsePyInt (s : Str) : Option ℤ :=
  match s with
  | '-' :: rest => (pyDigits rest).map (fun n => -(n : ℤ))
  | '+' :: rest => (pyDigits rest).map (fun n => (n : ℤ))
  | _ => (pyDigits s).map (fun n => (n : ℤ))

/-- season_order of patterns.py line 149 with the dict.get default 5 of
line 159: spring 0, summer 1, fall 2, winter 3, anything else 5. -/
def seasonRank (s : Str) : ℕ :=
  if s = "spring".toList then 0
  else if s = "summer".toList then 1
  else if s = "fall".toList then 2
  else if s = "winter".toList then 3
  else 5

/-- Sort keys of term_sort_key: (year, season rank, raw label), compared the
way Python compares these tuples (lexicographically, strings by code point). -/
abbrev TermKey := ℤ × ℕ × Str

/-- Python lexicographic (code point) strict comparison of strings. -/
def strLt : Str → Str → Bool
  | [], [] => false
  | [], _ :: _ => true
  | _ :: _, [] => false
  | x :: xs, y :: ys => if x < y then true else if y < x then false else strLt xs ys

/-- Python strict comparison of term_sort_key tuples. -/
def keyLt (a b : TermKey) : Bool :=
  if a.1 < b.1 then true
  else if b.1 < a.1 then false
  else if a.2.1 < b.2.1 then true
  else if b.2.1 < a.2.1 then false
  else strLt a.2.2 b.2.2

/-- term_sort_key of patterns.py lines 151-160: labels with at least two
whitespace-separated tokens whose final token parses as an integer year get
key (year, season rank of the lowercased first token, label); all other
labels get key (0, 0, label). -/
def termSortKey (term : Str) : TermKey :=
  let parts := splitWs term
  if 2 ≤ parts.length then
    match parsePyInt (parts.getLastD []) with
    | none => (0, 0, term)
    | some year => (year, seasonRank (lowerStr (parts.headD [])), term)
  else (0, 0, term)

/-- Total order used by sorted(terms, key=term_sort_key): label a precedes
label b when the key of b is not strictly below the key of a.  Distinct
labels always have distinct keys (the raw label is the final component),
so this order is deterministic and stability of the sort is immaterial. -/
def termLe (a b : Str) : Prop := keyLt (termSortKey b) (termSortKey a) = false

instance : DecidableRel termLe := fun a b => instDecidableEqBool _ _

/-- Positions of the elements of a list, starting at k (models enumerate). -/
def withIdx : List Str → ℕ → List (Str × ℕ)
  | [], _ => []
  | x :: xs, k => (x, k) :: withIdx xs (k + 1)

/-- First-match association lookup; on the duplicate-free lists that
_build_term_order receives (pandas .unique()) this coincides with the
Python dict built by the comprehension on line 163. -/
def lookupRank : List (Str × ℕ) → Str → Option ℕ
  | [], _ => none
  | (s, i) :: rest, t => if s = t then some i else lookupRank rest t

/-- _build_term_order of patterns.py lines 147-163: sort the labels by
term_sort_key and map each label to its position in the sorted order. -/
def buildTermOrder (terms : List Str) : List (Str × ℕ) :=
  withIdx (List.insertionSort termLe terms) 0

/-- One row of the course-term table consumed by detect_patterns: identity
columns, the averaged enrollment, the four rate columns (NaN as none) and
the section count. -/
structure Row where
  subject : Str
  catalog : Str
  term : Str
  enrollments : ℚ
  dfwRate : Option ℚ
  dropRate : Option ℚ
  incompleteRate : Option ℚ
  repeatRate : Option ℚ
  numSections : Option ℚ
deriving DecidableEq

/-- A detection result.  The source emits descriptive strings; each
constructor carries the tag of the string it models together with the
numeric and term values interpolated into that string. -/
inductive Finding where
  | persistent (threshold : ℚ) (streak : ℕ)
  | trend (slope : ℚ) (termsUsed : ℕ) (firstTerm lastTerm : Str) (latest : ℚ)
  | spike (latest priorMean : ℚ)
  | coOccurring (highDfw highDrop highInc : Bool)
deriving DecidableEq

/-- One row of the detect_patterns result (RESULT_COLUMNS of
patterns.py lines 11-23). -/
structure ResultRow where
  subject : Str
  catalog : Str
  latestDfwRate : Option ℚ
  latestDropRate : Option ℚ
  latestIncompleteRate : Option ℚ
  latestRepeatRate : Option ℚ
  latestEnrollments : ℚ
  avgEnrollments : ℚ
  latestNumSections : Option ℚ
  reasons : List Finding
  latestTerm : Str
deriving DecidableEq

/-- df[rate_col].dropna().values for the DFW rate column: the present
values of the series, in order, with missing entries removed. -/
def rateValues (rows : List Row) : List ℚ := rows.filterMap (fun r => r.dfwRate)

/-- pandas df.tail(n): the trailing n rows. -/
def pdTail (n : ℕ) (l : List Row) : List Row := l.drop (l.length - n)

/-- Arithmetic mean (numpy .mean()); guarded by nonemptiness at all uses. -/
def mean (l : List ℚ) : ℚ := l.sum / (l.length : ℚ)

/-- Population variance, the square of numpy .std(); the source's test
std == 0 is modelled as pvariance == 0, and its comparison against
mean + 2*std is modelled square-free (see checkSpikeVals). -/
def pvariance (l : List ℚ) : ℚ :=
  ((l.map (fun x => (x - mean l) ^ 2)).sum) / (l.length : ℚ)

/-- Ordinary least-squares slope of the values against indices 0..n-1,
as computed by scipy.stats.linregress: centered cross-moment over the
centered second moment of the indices. -/
def olsSlope (ys : List ℚ) : ℚ :=
  let xs : List ℚ := (List.range ys.length).map (Nat.cast : ℕ → ℚ)
  let xbar := mean xs
  let ybar := mean ys
  let num := ((xs.zip ys).map (fun p => (p.1 - xbar) * (p.2 - ybar))).sum
  let den := (xs.map (fun x => (x - xbar) ^ 2)).sum
  num / den

/-- One step of the streak loop of _check_persistent (lines 180-185):
state is (running streak, best streak). -/
def streakStep (threshold : ℚ) (sb : ℕ × ℕ) (v : ℚ) : ℕ × ℕ :=
  if threshold ≤ v then (sb.1 + 1, max sb.2 (sb.1 + 1)) else (0, sb.2)

/-- best_streak after the loop of _check_persistent. -/
def bestStreak (values : List ℚ) (threshold : ℚ) : ℕ :=
  (values.foldl (streakStep threshold) (0, 0)).2

/-- Value-level _check_persistent of patterns.py lines 166-192, after the
dropna: None when fewer values than n_consecutive, else a persistence
Finding reporting the best streak when it reaches n_consecutive. -/
def checkPersistentVals (values : List ℚ) (threshold : ℚ) (nConsecutive : ℕ) :
    Option Finding :=
  if values.length < nConsecutive then none
  else if nConsecutive ≤ bestStreak values threshold then
    some (.persistent threshold (bestStreak values threshold))
  else none

/-- _check_persistent applied to the dfw_rate column of a window. -/
def checkPersistent (rows : List Row) (threshold : ℚ) (nConsecutive : ℕ) :
    Option Finding :=
  checkPersistentVals (rateValues rows) threshold nConsecutive

/-- _check_worsening_trend of patterns.py lines 195-225: take the last
trend_terms rows, drop missing values, require at least 3, fit the OLS
slope against 0..n-1, and flag when the slope strictly exceeds the cutoff
and the latest present value is at least 0.8 times the threshold. -/
def checkWorseningTrend (rows : List Row) (threshold : ℚ) (trendTerms : ℕ)
    (slopeCutoff : ℚ) : Option Finding :=
  let recent := pdTail trendTerms rows
  let values := rateValues recent
  if values.length < 3 then none
  else
    let slope := olsSlope values
    let latest := values.getLastD 0
    if slopeCutoff < slope ∧ threshold * (8 / 10) ≤ latest then
      some (.trend slope values.length ((recent.map (fun r => r.term)).headD [])
        ((recent.map (fun r => r.term)).getLastD []) latest)
    else none

/-- Value-level _check_spike of patterns.py lines 228-250: None with fewer
than 3 present values or a zero-variance prior; else flag when the latest
value exceeds prior mean + 2 * prior std.  The source compares against
mean + 2*std with std = sqrt of the population variance; since both sides
minus the mean are then nonnegative, this is equivalently stated square-free
as mean < latest and 4 * variance < (latest - mean)^2, which keeps the
definition inside ℚ.  The equivalence with the sqrt form is proved below. -/
def checkSpikeVals (values : List ℚ) : Option Finding :=
  if values.length < 3 then none
  else
    let prior := values.dropLast
    let m := mean prior
    let varp := pvariance prior
    if varp = 0 then none
    else
      let latest := values.getLastD 0
      if m < latest ∧ 4 * varp < (latest - m) ^ 2 then some (.spike latest m)
      else none

/-- _check_spike applied to the dfw_rate column of a window. -/
def checkSpike (rows : List Row) : Option Finding :=
  checkSpikeVals (rateValues rows)

/-- Is a possibly-missing rate present and at least its threshold
(the pd.isna guards of _check_co_occurring)? -/
def highRate (r : Option ℚ) (threshold : ℚ) : Bool :=
  match r with
  | none => false
  | some v => decide (threshold ≤ v)

/-- _check_co_occurring of patterns.py lines 253-284: flag when the latest
row has a high DFW rate together with a high drop or incomplete rate; the
emitted string lists every rate that individually cleared its threshold,
modelled by the three booleans. -/
def checkCoOccurring (latest : Row) (dfwThreshold dropThreshold
    incompleteThreshold : ℚ) : Option Finding :=
  let highDfw := highRate latest.dfwRate dfwThreshold
  let highDrop := highRate latest.dropRate dropThreshold
  let highInc := highRate latest.incompleteRate incompleteThreshold
  if highDfw && (highDrop || highInc) then
    some (.coOccurring highDfw highDrop highInc)
  else none

/-- Accumulator loop for uniqueKeepFirst: seen holds emitted elements. -/
def uniqueKeepFirstAux [DecidableEq α] : List α → List α → List α
  | [], _ => []
  | x :: xs, seen =>
    if x ∈ seen then uniqueKeepFirstAux xs seen
    else x :: uniqueKeepFirstAux xs (x :: seen)

/-- First-occurrence deduplication, as pandas .unique() and as the set of
first-seen keys that pandas groupby sorts. -/
def uniqueKeepFirst [DecidableEq α] (l : List α) : List α :=
  uniqueKeepFirstAux l []

/-- Row order of sort_values("_term_order"): by the resolved rank of the
row's term under the given mapping (stable model of the pandas sort). -/
def rowRankLe (m : List (Str × ℕ)) (a b : Row) : Prop :=
  (lookupRank m a.term).getD 0 ≤ (lookupRank m b.term).getD 0

instance (m : List (Str × ℕ)) : DecidableRel (rowRankLe m) :=
  fun a b => Nat.decLe _ _

/-- Python tuple comparison of (Subject, Catalog Number) pairs, strict. -/
def pairLtB (a b : Str × Str) : Bool :=
  strLt a.1 b.1 || (decide (a.1 = b.1) && strLt a.2 b.2)

/-- Sort order of pandas groupby keys (ascending by the course key pair). -/
def pairLe (a b : Str × Str) : Prop := pairLtB b a = false

instance : DecidableRel pairLe := fun a b => instDecidableEqBool _ _

/-- Bool core of the final sort order: latest_dfw_rate descending, missing
rates last (pandas na_position default). -/
def descRateLeB (a b : ResultRow) : Bool :=
  match a.latestDfwRate, b.latestDfwRate with
  | some x, some y => decide (y ≤ x)
  | some _, none => true
  | none, some _ => false
  | none, none => true

/-- Order of the final sort_values("latest_dfw_rate", ascending=False)
(stable model; the source uses the pandas default sort kind). -/
def descRateLe (a b : ResultRow) : Prop := descRateLeB a b = true

instance : DecidableRel descRateLe := fun a b => instDecidableEqBool _ _

/-- Rows of one groupby group, in retained table order. -/
def groupRows (df : List Row) (key : Str × Str) : List Row :=
  df.filter (fun r => decide (r.subject = key.1 ∧ r.catalog = key.2))

/-- Placeholder row behind the nonemptiness guard of recent.iloc[-1]. -/
def emptyRow : Row := ⟨[], [], [], 0, none, none, none, none, none⟩

/-- Body of the per-course loop of detect_patterns (lines 63-114): order the
group chronologically, take the trailing lookback window, skip the course if
that window is empty, run the four heuristics in their fixed order, and
materialize a result row if at least one Finding resulted. -/
def processCourse (m : List (Str × ℕ)) (dfwThreshold dropThreshold
    incompleteThreshold : ℚ) (consecutiveTerms lookbackWindow trendTerms : ℕ)
    (trendSlopeCutoff : ℚ) (group : List Row) : Option ResultRow :=
  let g := List.insertionSort (rowRankLe m) group
  let recent := pdTail lookbackWindow g
  if recent = [] then none
  else
    let latest := recent.getLastD emptyRow
    let reasons := List.reduceOption
      [checkPersistent recent dfwThreshold consecutiveTerms,
       checkWorseningTrend recent dfwThreshold trendTerms trendSlopeCutoff,
       checkSpike recent,
       checkCoOccurring latest dfwThreshold dropThreshold incompleteThreshold]
    if reasons = [] then none
    else some
      { subject := latest.subject
        catalog := latest.catalog
        latestDfwRate := latest.dfwRate
        latestDropRate := latest.dropRate
        latestIncompleteRate := latest.incompleteRate
        latestRepeatRate := latest.repeatRate
        latestEnrollments := latest.enrollments
        avgEnrollments := mean (g.map (fun r => r.enrollments))
        latestNumSections := latest.numSections
        reasons := reasons
        latestTerm := latest.term }

/-- detect_patterns up to line 114: chronological sort of the table, the
minimum-enrollment filter, grouping by course in sorted key order, and the
per-course detection loop.  This is the list of flagged courses before the
recency post-filter and the final ranking. -/
def detectResults (courseTermDf : List Row) (dfwThreshold dropThreshold
    incompleteThreshold : ℚ) (minEnrollments : ℚ)
    (consecutiveTerms lookbackWindow trendTerms : ℕ)
    (trendSlopeCutoff : ℚ) : List ResultRow :=
  let m := buildTermOrder (uniqueKeepFirst (courseTermDf.map (fun r => r.term)))
  let sortedDf := List.insertionSort (rowRankLe m) courseTermDf
  let filtered := sortedDf.filter (fun r => decide (minEnrollments ≤ r.enrollments))
  let keys := List.insertionSort pairLe
    (uniqueKeepFirst (filtered.map (fun r => (r.subject, r.catalog))))
  (keys.map (fun k => processCourse m dfwThreshold dropThreshold
    incompleteThreshold consecutiveTerms lookbackWindow trendTerms
    trendSlopeCutoff (groupRows filtered k))).reduceOption

/-- Recency post-filter of detect_patterns lines 119-126: keep a flagged
course when the global maximum term rank of the entire unfiltered input
table minus the rank of the course's latest term (0 for an unknown label)
is strictly below recency_terms; skipped when the term mapping is empty. -/
def recencyFilter (courseTermDf : List Row) (results : List ResultRow)
    (recencyTerms : ℕ) : List ResultRow :=
  let m := buildTermOrder (uniqueKeepFirst (courseTermDf.map (fun r => r.term)))
  if m = [] then results
  else
    let maxOrder := (m.map (fun p => p.2)).foldl max 0
    results.filter (fun r => decide
      ((maxOrder : ℤ) - (((lookupRank m r.latestTerm).getD 0 : ℕ) : ℤ)
        < (recencyTerms : ℤ)))

/-- detect_patterns of patterns.py lines 26-135.  The lapsed_threshold and
repeat_threshold parameters are accepted, as in the source signature, and
never read by the body. -/
def detectPatterns (courseTermDf : List Row) (dfwThreshold dropThreshold
    incompleteThreshold lapsedThreshold repeatThreshold : ℚ)
    (minEnrollments : ℚ) (consecutiveTerms lookbackWindow trendTerms : ℕ)
    (trendSlopeCutoff : ℚ) (recencyTerms : ℕ) : List ResultRow :=
  List.insertionSort descRateLe
    (recencyFilter courseTermDf
      (detectResults courseTermDf dfwThreshold dropThreshold
        incompleteThreshold minEnrollments consecutiveTerms lookbackWindow
        trendTerms trendSlopeCutoff)
      recencyTerms)

/-- Raw count columns of one record entering compute_metrics (floats in
pandas, exact rationals here). -/
structure SectionRecord where
  enrollments : ℚ
  gradesUsed : ℚ
  dfwCount : ℚ
  dropped : ℚ
  incompleteI : ℚ
  incompleteEI : ℚ
  incompletePI : ℚ
  lapsedF : ℚ
  repeats : ℚ

/-- Rate columns produced by compute_metrics; none is the np.nan branch of
each np.where. -/
structure RateMetrics where
  dfwRate : Option ℚ
  dropRate : Option ℚ
  incompleteRate : Option ℚ
  lapsedIncompleteRate : Option ℚ
  repeatRate : Option ℚ
deriving DecidableEq

/-- compute_metrics of metrics.py lines 7-49: each rate is count over its
denominator when that denominator is positive, and missing (NaN) otherwise;
the incomplete denominators fall back to enrollments when grades_used is
not positive. -/
def computeMetrics (r : SectionRecord) : RateMetrics :=
  let denomInc := if 0 < r.gradesUsed then r.gradesUsed else r.enrollments
  { dfwRate :=
      if 0 < r.gradesUsed then some (r.dfwCount / r.gradesUsed) else none
    dropRate :=
      if 0 < r.enrollments then some (r.dropped / r.enrollments) else none
    incompleteRate :=
      if 0 < denomInc then
        some ((r.incompleteI + r.incompleteEI + r.incompletePI) / denomInc)
      else none
    lapsedIncompleteRate :=
      if 0 < denomInc then some (r.lapsedF / denomInc) else none
    repeatRate :=
      if 0 < r.enrollments then some (r.repeats / r.enrollments) else none }

/-- Does a Finding carry the persistence tag? -/
def isPersistFinding : Finding → Bool
  | .persistent _ _ => true
  | _ => false

/-- Does a Finding carry the trend tag? -/
def isTrendFinding : Finding → Bool
  | .trend _ _ _ _ _ => true
  | _ => false

/-- Does a Finding carry the spike tag? -/
def isSpikeFinding : Finding → Bool
  | .spike _ _ => true
  | _ => false

/-- Severity tiers of the Severity Classifier. -/
inductive Severity where
  | immediate
  | moderate
  | watch
deriving DecidableEq

/-- Modelled from the spec: the Severity Classifier's severity assignment
(spec section 4.4) is not implemented under src/ (analysis.py's
_write_priority_concerns only ranks the flagged table by reason count and
rate); this definition follows the spec's words.  First match wins:
immediate when the course has at least 2 Findings, or has the persistence
tag, or its latest rate exceeds 1.5 times the primary threshold; moderate
when it has a trend or spike tag and did not qualify as immediate;
otherwise watch. -/
def classifySeverity (findings : List Finding) (latestRate : ℚ)
    (threshold : ℚ) : Severity :=
  if 2 ≤ findings.length ∨ findings.any isPersistFinding = true ∨
      threshold * (3 / 2) < latestRate then
    .immediate
  else if findings.any isTrendFinding = true ∨
      findings.any isSpikeFinding = true then
    .moderate
  else .watch

/-! ### Order lemmas for the term sort key -/

theorem strLt_irrefl (s : Str) : strLt s s = false := by
  induction s with
  | nil => rfl
  | cons x xs ih => simp [strLt, ih]

theorem strLt_trans {a b c : Str} (hab : strLt a b = true)
    (hbc : strLt b c = true) : strLt a c = true := by
  induction a generalizing b c with
  | nil =>
    cases b with
    | nil => simp [strLt] at hab
    | cons y ys =>
      cases c with
      | nil => simp [strLt] at hbc
      | cons z zs => simp [strLt]
  | cons x xs ih =>
    cases b with
    | nil => simp [strLt] at hab
    | cons y ys =>
      cases c with
      | nil => simp [strLt] at hbc
      | cons z zs =>
        simp only [strLt] at hab hbc ⊢
        rcases lt_trichotomy x y with hxy | hxy | hxy
        · rcases lt_trichotomy y z with hyz | hyz | hyz
          · simp [lt_trans hxy hyz]
          · subst hyz
            simp [hxy]
          · simp [lt_asymm hyz, hyz] at hbc
        · subst hxy
          rcases lt_trichotomy x z with hxz | hxz | hxz
          · simp [hxz]
          · subst hxz
            simp [lt_irrefl] at hab hbc ⊢
            exact ih hab hbc
          · simp [lt_asymm hxz, hxz] at hbc
        · simp [lt_asymm hxy, hxy] at hab

theorem strLt_connex {a b : Str} (hab : strLt a b = false)
    (hba : strLt b a = false) : a = b := by
  induction a generalizing b with
  | nil =>
    cases b with
    | nil => rfl
    | cons y ys => simp [strLt] at hab
  | cons x xs ih =>
    cases b with
    | nil => simp [strLt] at hba
    | cons y ys =>
      simp only [strLt] at hab hba
      rcases lt_trichotomy x y with hxy | hxy | hxy
      · simp [hxy] at hab
      · subst hxy
        simp at hab hba
        exact congrArg (x :: ·) (ih hab hba)
      · simp [hxy] at hba

theorem strLt_asymm {a b : Str} (hab : strLt a b = true) :
    strLt b a = false := by
  by_contra h
  have hba : strLt b a = true := by
    cases hh : strLt b a with
    | true => rfl
    | false => exact absurd hh h
  have : strLt a a = true := strLt_trans hab hba
  rw [strLt_irrefl] at this
  exact Bool.false_ne_true this

/-- Characterization of keyLt as the lexicographic strict order. -/
theorem keyLt_iff (a1 b1 : ℤ) (a2 b2 : ℕ) (a3 b3 : Str) :
    keyLt (a1, a2, a3) (b1, b2, b3) = true ↔
    a1 < b1 ∨ (a1 = b1 ∧ (a2 < b2 ∨
      (a2 = b2 ∧ strLt a3 b3 = true))) := by
  simp only [keyLt]
  split_ifs with h1 h2 h3 h4
  · simp [h1]
  · simp only [Bool.false_eq_true, false_iff]
    rintro (h | ⟨h, -⟩) <;> omega
  · have ha : a1 = b1 := by omega
    simp [ha, h3]
  · simp only [Bool.false_eq_true, false_iff]
    rintro (h | ⟨h, h' | ⟨h', -⟩⟩) <;> omega
  · have ha : a1 = b1 := by omega
    have hb : a2 = b2 := by omega
    simp [ha, hb]

theorem keyLt_trans {a b c : TermKey} (hab : keyLt a b = true)
    (hbc : keyLt b c = true) : keyLt a c = true := by
  obtain ⟨a1, a2, a3⟩ := a
  obtain ⟨b1, b2, b3⟩ := b
  obtain ⟨c1, c2, c3⟩ := c
  rw [keyLt_iff] at hab hbc ⊢
  rcases hab with h | ⟨h, h' | ⟨h', h''⟩⟩ <;>
    rcases hbc with g | ⟨g, g' | ⟨g', g''⟩⟩
  · exact Or.inl (by omega)
  · exact Or.inl (by omega)
  · exact Or.inl (by omega)
  · exact Or.inl (by omega)
  · exact Or.inr ⟨by omega, Or.inl (by omega)⟩
  · exact Or.inr ⟨by omega, Or.inl (by omega)⟩
  · exact Or.inl (by omega)
  · exact Or.inr ⟨by omega, Or.inl (by omega)⟩
  · exact Or.inr ⟨by omega, Or.inr ⟨by omega, strLt_trans h'' g''⟩⟩

theorem keyLt_asymm {a b : TermKey} (hab : keyLt a b = true) :
    keyLt b a = false := by
  cases hh : keyLt b a with
  | false => rfl
  | true =>
    exfalso
    obtain ⟨a1, a2, a3⟩ := a
    obtain ⟨b1, b2, b3⟩ := b
    rw [keyLt_iff] at hab hh
    rcases hab with h | ⟨h, h' | ⟨h', h''⟩⟩ <;>
      rcases hh with g | ⟨g, g' | ⟨g', g''⟩⟩ <;> try omega
    have := strLt_asymm h''
    rw [this] at g''
    exact Bool.false_ne_true g''

theorem keyLt_connex {a b : TermKey} (hab : keyLt a b = false)
    (hba : keyLt b a = false) : a = b := by
  obtain ⟨a1, a2, a3⟩ := a
  obtain ⟨b1, b2, b3⟩ := b
  have hab2 : ¬(a1 < b1 ∨ (a1 = b1 ∧ (a2 < b2 ∨
      (a2 = b2 ∧ strLt a3 b3 = true)))) := by
    rw [← keyLt_iff]
    simp [hab]
  have hba2 : ¬(b1 < a1 ∨ (b1 = a1 ∧ (b2 < a2 ∨
      (b2 = a2 ∧ strLt b3 a3 = true)))) := by
    rw [← keyLt_iff]
    simp [hba]
  push_neg at hab2 hba2
  obtain ⟨h1, h2⟩ := hab2
  obtain ⟨g1, g2⟩ := hba2
  have e1 : a1 = b1 := le_antisymm g1 h1
  subst e1
  obtain ⟨h3, h4⟩ := h2 rfl
  obtain ⟨g3, g4⟩ := g2 rfl
  have e2 : a2 = b2 := le_antisymm g3 h3
  subst e2
  have s1 : strLt a3 b3 = false := by
    cases hh : strLt a3 b3 with
    | false => rfl
    | true => exact absurd hh (h4 rfl)
  have s2 : strLt b3 a3 = false := by
    cases hh : strLt b3 a3 with
    | false => rfl
    | true => exact absurd hh (g4 rfl)
  rw [strLt_connex s1 s2]

/-- The raw label is always the third component of its sort key. -/
theorem termSortKey_label (t : Str) : (termSortKey t).2.2 = t := by
  simp only [termSortKey]
  split
  · split <;> rfl
  · rfl

instance : IsTotal Str termLe := by
  constructor
  intro a b
  unfold termLe
  cases h : keyLt (termSortKey b) (termSortKey a) with
  | false => exact Or.inl rfl
  | true => exact Or.inr (keyLt_asymm h)

instance : IsTrans Str termLe := by
  constructor
  intro a b c hab hbc
  unfold termLe at hab hbc ⊢
  cases h : keyLt (termSortKey c) (termSortKey a) with
  | false => rfl
  | true =>
    exfalso
    cases hax : keyLt (termSortKey a) (termSortKey b) with
    | true => exact Bool.false_ne_true (hbc ▸ keyLt_trans h hax)
    | false =>
      have key_ab : termSortKey a = termSortKey b := keyLt_connex hax hab
      rw [key_ab] at h
      exact Bool.false_ne_true (hbc ▸ h)

/-! ### Rank lemmas for buildTermOrder -/

theorem lookupRank_withIdx_ge {l : List Str} {k : ℕ} {t : Str} {i : ℕ}
    (h : lookupRank (withIdx l k) t = some i) : k ≤ i := by
  induction l generalizing k with
  | nil => simp [withIdx, lookupRank] at h
  | cons x xs ih =>
    simp only [withIdx, lookupRank] at h
    by_cases hx : x = t
    · rw [if_pos hx] at h
      injection h with h2
      omega
    · rw [if_neg hx] at h
      have := ih h
      omega

theorem lookupRank_withIdx_lt {l : List Str} {k : ℕ} {t : Str} {i : ℕ}
    (h : lookupRank (withIdx l k) t = some i) : i < k + l.length := by
  induction l generalizing k with
  | nil => simp [withIdx, lookupRank] at h
  | cons x xs ih =>
    simp only [withIdx, lookupRank] at h
    by_cases hx : x = t
    · rw [if_pos hx] at h
      injection h with h2
      simp [List.length_cons]
      omega
    · rw [if_neg hx] at h
      have := ih h
      simp [List.length_cons]
      omega

theorem lookupRank_withIdx_mem {l : List Str} {k : ℕ} {t : Str} {i : ℕ}
    (h : lookupRank (withIdx l k) t = some i) : t ∈ l := by
  induction l generalizing k with
  | nil => simp [withIdx, lookupRank] at h
  | cons x xs ih =>
    simp only [withIdx, lookupRank] at h
    by_cases hx : x = t
    · rw [hx]
      exact List.mem_cons_self _ _
    · rw [if_neg hx] at h
      exact List.mem_cons_of_mem _ (ih h)

theorem lookupRank_withIdx_of_mem {l : List Str} {t : Str} (h : t ∈ l)
    (k : ℕ) : ∃ i, lookupRank (withIdx l k) t = some i := by
  induction l generalizing k with
  | nil => simp at h
  | cons x xs ih =>
    simp only [withIdx, lookupRank]
    by_cases hx : x = t
    · exact ⟨k, if_pos hx⟩
    · rw [if_neg hx]
      have hm : t ∈ xs := by
        rcases List.mem_cons.mp h with h1 | h1
        · exact absurd h1.symm hx
        · exact h1
      exact ih hm (k + 1)

theorem lookupRank_withIdx_inj {l : List Str} {k : ℕ} {t u : Str} {i : ℕ}
    (ht : lookupRank (withIdx l k) t = some i)
    (hu : lookupRank (withIdx l k) u = some i) : t = u := by
  induction l generalizing k with
  | nil => simp [withIdx, lookupRank] at ht
  | cons x xs ih =>
    simp only [withIdx, lookupRank] at ht hu
    by_cases hxt : x = t
    · by_cases hxu : x = u
      · rw [← hxt, ← hxu]
      · rw [if_pos hxt] at ht
        rw [if_neg hxu] at hu
        injection ht with ht2
        have := lookupRank_withIdx_ge hu
        omega
    · by_cases hxu : x = u
      · rw [if_pos hxu] at hu
        rw [if_neg hxt] at ht
        injection hu with hu2
        have := lookupRank_withIdx_ge ht
        omega
      · rw [if_neg hxt] at ht
        rw [if_neg hxu] at hu
        exact ih ht hu

theorem lookupRank_withIdx_get {l : List Str} (hnd : l.Nodup) (k : ℕ)
    (j : Fin l.length) :
    lookupRank (withIdx l k) (l.get j) = some (k + j.val) := by
  induction l generalizing k with
  | nil => exact absurd j.isLt (by simp)
  | cons x xs ih =>
    rcases j with ⟨jv, hj⟩
    cases jv with
    | zero =>
      simp [withIdx, lookupRank]
    | succ jw =>
      have hx : x ∉ xs := (List.nodup_cons.mp hnd).1
      have hnd2 : xs.Nodup := (List.nodup_cons.mp hnd).2
      have hjw : jw < xs.length := by simpa using hj
      have hget : (x :: xs).get ⟨jw + 1, hj⟩ = xs.get ⟨jw, hjw⟩ := rfl
      rw [hget]
      simp only [withIdx, lookupRank]
      have hne : x ≠ xs.get ⟨jw, hjw⟩ := by
        intro he
        exact hx (he ▸ List.get_mem xs jw hjw)
      rw [if_neg hne]
      rw [ih hnd2 (k + 1) ⟨jw, hjw⟩]
      simp only [Fin.val_mk]
      congr 1
      omega

/-- In a list sorted by the term order, a label whose sort key is strictly
below another label's sort key receives a strictly smaller rank. -/
theorem rank_lt_rank_of_keyLt {l : List Str} (hp : List.Pairwise termLe l)
    {k : ℕ} {t u : Str} {i j : ℕ}
    (ht : lookupRank (withIdx l k) t = some i)
    (hu : lookupRank (withIdx l k) u = some j)
    (hk : keyLt (termSortKey t) (termSortKey u) = true) : i < j := by
  induction l generalizing k with
  | nil => simp [withIdx, lookupRank] at ht
  | cons x xs ih =>
    obtain ⟨hx, hp2⟩ := List.pairwise_cons.mp hp
    simp only [withIdx, lookupRank] at ht hu
    by_cases hxt : x = t
    · rw [if_pos hxt] at ht
      injection ht with ht2
      by_cases hxu : x = u
      · exfalso
        have htu : t = u := hxt ▸ hxu
        rw [htu] at hk
        have := keyLt_asymm hk
        rw [this] at hk
        exact Bool.false_ne_true hk
      · rw [if_neg hxu] at hu
        have := lookupRank_withIdx_ge hu
        omega
    · rw [if_neg hxt] at ht
      by_cases hxu : x = u
      · exfalso
        have htm : t ∈ xs := lookupRank_withIdx_mem ht
        have hle : termLe x t := hx t htm
        unfold termLe at hle
        rw [hxu] at hle
        rw [hle] at hk
        exact Bool.false_ne_true hk
      · rw [if_neg hxu] at hu
        exact ih hp2 ht hu

/-- Shape of the sort key of a label that fails to parse: fewer than two
tokens, or a final token that is not an integer. -/
theorem termSortKey_malformed {t : Str}
    (h : (splitWs t).length < 2 ∨ parsePyInt ((splitWs t).getLastD []) = none) :
    termSortKey t = (0, 0, t) := by
  simp only [termSortKey]
  rcases h with h | h
  · rw [if_neg (by omega)]
  · by_cases h2 : 2 ≤ (splitWs t).length
    · rw [if_pos h2, h]
    · rw [if_neg h2]

/-- Shape of the sort key of a label that parses: (year, season rank of the
lowercased first token, label). -/
theorem termSortKey_valid {t : Str} {y : ℤ}
    (h2 : 2 ≤ (splitWs t).length)
    (hy : parsePyInt ((splitWs t).getLastD []) = some y) :
    termSortKey t = (y, seasonRank (lowerStr ((splitWs t).headD [])), t) := by
  simp only [termSortKey]
  rw [if_pos h2, hy]

/-- Valid label with year 0 used against claim C4's final clause. -/
def springZeroLabel : Str := "spring 0".toList

/-- Malformed label (single token) used against claim C4's final clause. -/
def zzLabel : Str := "zz".toList

/-- Term set on which a malformed label ranks after a valid parsed label. -/
def demoTermsC4 : List Str := [springZeroLabel, zzLabel]

/-- C4 counterexample: the label "zz" does not split into 2 tokens, so it is
malformed and receives sort key (0, 0, "zz"); the label "spring 0" splits
into 2 tokens whose final token parses as the integer year 0, so it is a
valid parsed term.  Yet _build_term_order ranks "spring 0" at 0 and "zz"
at 1: the malformed label does not rank before all valid parsed terms,
because a valid term of year 0 shares the leading key components (0, 0)
and the tie is broken by the raw label strings. -/
theorem c4_malformed_after_valid_counterexample :
    (splitWs zzLabel).length < 2 ∧
    (2 ≤ (splitWs springZeroLabel).length ∧
      parsePyInt ((splitWs springZeroLabel).getLastD []) = some 0) ∧
    lookupRank (buildTermOrder demoTermsC4) springZeroLabel = some 0 ∧
    lookupRank (buildTermOrder demoTermsC4) zzLabel = some 1 ∧
    ¬(∀ i j : ℕ, lookupRank (buildTermOrder demoTermsC4) zzLabel = some i →
        lookupRank (buildTermOrder demoTermsC4) springZeroLabel = some j →
        i < j) := by
  refine ⟨by decide, ⟨by decide, by decide⟩, by decide, by decide, ?_⟩
  intro h
  have := h 1 0 (by decide) (by decide)
  omega

/-- C4 (amended): for every duplicate-free list of term labels, the
resolver assigns each label a rank in 0..N-1, every rank in 0..N-1 is
assigned, no two distinct labels share a rank, chronological order
(year first, then season in the order spring, summer, fall, winter) is
respected for valid parsed labels, every malformed label receives sort
key (0, 0, label), and a malformed label ranks before every valid parsed
term whose year is at least 1 (not before every valid parsed term:
see the counterexample for year 0). -/
theorem c4_term_order_dense_chronological_amended
    (terms : List Str) (hnd : terms.Nodup) :
    (∀ t ∈ terms, ∃ i, i < terms.length ∧
      lookupRank (buildTermOrder terms) t = some i) ∧
    (∀ j, j < terms.length → ∃ t ∈ terms,
      lookupRank (buildTermOrder terms) t = some j) ∧
    (∀ t ∈ terms, ∀ u ∈ terms, ∀ i j : ℕ,
      lookupRank (buildTermOrder terms) t = some i →
      lookupRank (buildTermOrder terms) u = some j → t ≠ u → i ≠ j) ∧
    (∀ t ∈ terms, ∀ u ∈ terms, ∀ yt yu : ℤ, ∀ i j : ℕ,
      2 ≤ (splitWs t).length →
      parsePyInt ((splitWs t).getLastD []) = some yt →
      2 ≤ (splitWs u).length →
      parsePyInt ((splitWs u).getLastD []) = some yu →
      (yt < yu ∨ (yt = yu ∧
        seasonRank (lowerStr ((splitWs t).headD [])) <
          seasonRank (lowerStr ((splitWs u).headD [])))) →
      lookupRank (buildTermOrder terms) t = some i →
      lookupRank (buildTermOrder terms) u = some j → i < j) ∧
    (∀ t : Str,
      ((splitWs t).length < 2 ∨
        parsePyInt ((splitWs t).getLastD []) = none) →
      termSortKey t = (0, 0, t)) ∧
    (∀ t ∈ terms, ∀ u ∈ terms, ∀ yu : ℤ, ∀ i j : ℕ,
      ((splitWs t).length < 2 ∨
        parsePyInt ((splitWs t).getLastD []) = none) →
      2 ≤ (splitWs u).length →
      parsePyInt ((splitWs u).getLastD []) = some yu →
      1 ≤ yu →
      lookupRank (buildTermOrder terms) t = some i →
      lookupRank (buildTermOrder terms) u = some j → i < j) := by
  have hperm := List.perm_insertionSort termLe terms
  have hlen : (List.insertionSort termLe terms).length = terms.length :=
    hperm.length_eq
  have hnd2 : (List.insertionSort termLe terms).Nodup :=
    hperm.nodup_iff.mpr hnd
  have hsort : List.Pairwise termLe (List.insertionSort termLe terms) :=
    List.sorted_insertionSort termLe terms
  refine ⟨?_, ?_, ?_, ?_, ?_, ?_⟩
  · intro t ht
    obtain ⟨i, hi⟩ :=
      lookupRank_withIdx_of_mem (hperm.mem_iff.mpr ht) 0
    have hb := lookupRank_withIdx_lt hi
    exact ⟨i, by omega, hi⟩
  · intro j hj
    have hj2 : j < (List.insertionSort termLe terms).length := by omega
    refine ⟨(List.insertionSort termLe terms).get ⟨j, hj2⟩,
      hperm.mem_iff.mp (List.get_mem _ j hj2), ?_⟩
    have := lookupRank_withIdx_get hnd2 0 ⟨j, hj2⟩
    simpa using this
  · intro t ht u hu i j hti huj hne he
    exact hne (lookupRank_withIdx_inj hti (he ▸ huj))
  · intro t ht u hu yt yu i j h2t hyt h2u hyu hlt hti huj
    refine rank_lt_rank_of_keyLt hsort hti huj ?_
    rw [termSortKey_valid h2t hyt, termSortKey_valid h2u hyu, keyLt_iff]
    rcases hlt with h | ⟨h, h'⟩
    · exact Or.inl h
    · exact Or.inr ⟨h, Or.inl h'⟩
  · intro t h
    exact termSortKey_malformed h
  · intro t ht u hu yu i j hmal h2u hyu hpos hti huj
    refine rank_lt_rank_of_keyLt hsort hti huj ?_
    rw [termSortKey_malformed hmal, termSortKey_valid h2u hyu, keyLt_iff]
    exact Or.inl (by omega)

/-- C4 witness: the amended theorem applied to a concrete duplicate-free
term list. -/
theorem c4_term_order_witness :
    (["Spring 2021".toList, "Fall 2020".toList] : List Str).Nodup ∧
    (∃ i, i < (["Spring 2021".toList, "Fall 2020".toList] : List Str).length ∧
      lookupRank (buildTermOrder ["Spring 2021".toList, "Fall 2020".toList])
        "Spring 2021".toList = some i) :=
  ⟨by decide,
    (c4_term_order_dense_chronological_amended
      ["Spring 2021".toList, "Fall 2020".toList] (by decide)).1
      "Spring 2021".toList (by decide)⟩

/-- Term set for the C10 witness: a recognized season of year 2020, an
unrecognized first token of year 2020, and a recognized season of 2021. -/
def demoTermsC10 : List Str :=
  ["Spring 2020".toList, "Xx 2020".toList, "Spring 2021".toList]

/-- C10: a label whose final token parses as an integer year but whose
first token, lowercased, is none of spring, summer, fall, winter receives
sort key (year, 5, label); it therefore ranks after every label of the
same year with a recognized season, and before every valid label of a
later year. -/
theorem c10_unrecognized_season_rank
    (terms : List Str) (hnd : terms.Nodup) (t : Str) (ht : t ∈ terms)
    (y : ℤ) (hlen : 2 ≤ (splitWs t).length)
    (hy : parsePyInt ((splitWs t).getLastD []) = some y)
    (hseason : lowerStr ((splitWs t).headD []) ∉
      ([ "spring".toList, "summer".toList,
         "fall".toList, "winter".toList ] : List Str)) :
    termSortKey t = (y, 5, t) ∧
    (∀ u ∈ terms, ∀ i j : ℕ,
      2 ≤ (splitWs u).length →
      parsePyInt ((splitWs u).getLastD []) = some y →
      seasonRank (lowerStr ((splitWs u).headD [])) ≤ 3 →
      lookupRank (buildTermOrder terms) u = some i →
      lookupRank (buildTermOrder terms) t = some j → i < j) ∧
    (∀ v ∈ terms, ∀ yv : ℤ, ∀ i j : ℕ,
      2 ≤ (splitWs v).length →
      parsePyInt ((splitWs v).getLastD []) = some yv →
      y < yv →
      lookupRank (buildTermOrder terms) t = some i →
      lookupRank (buildTermOrder terms) v = some j → i < j) := by
  have hsort : List.Pairwise termLe (List.insertionSort termLe terms) :=
    List.sorted_insertionSort termLe terms
  have hs5 : seasonRank (lowerStr ((splitWs t).headD [])) = 5 := by
    have h1 : lowerStr ((splitWs t).headD []) ≠ "spring".toList := by
      intro he
      exact hseason (by rw [he]; simp)
    have h2 : lowerStr ((splitWs t).headD []) ≠ "summer".toList := by
      intro he
      exact hseason (by rw [he]; simp)
    have h3 : lowerStr ((splitWs t).headD []) ≠ "fall".toList := by
      intro he
      exact hseason (by rw [he]; simp)
    have h4 : lowerStr ((splitWs t).headD []) ≠ "winter".toList := by
      intro he
      exact hseason (by rw [he]; simp)
    unfold seasonRank
    rw [if_neg h1, if_neg h2, if_neg h3, if_neg h4]
  have hkey : termSortKey t = (y, 5, t) := by
    rw [termSortKey_valid hlen hy, hs5]
  refine ⟨hkey, ?_, ?_⟩
  · intro u hu i j h2u hyu hsu hui htj
    refine rank_lt_rank_of_keyLt hsort hui htj ?_
    rw [termSortKey_valid h2u hyu, hkey, keyLt_iff]
    exact Or.inr ⟨rfl, Or.inl (by omega)⟩
  · intro v hv yv i j h2v hyv hlt hti hvj
    refine rank_lt_rank_of_keyLt hsort hti hvj ?_
    rw [termSortKey_valid h2v hyv, hkey, keyLt_iff]
    exact Or.inl hlt

/-- C10 witness: the theorem applied to a concrete term list, placing
"Xx 2020" after "Spring 2020" and before "Spring 2021". -/
theorem c10_unrecognized_season_witness :
    termSortKey "Xx 2020".toList = (2020, 5, "Xx 2020".toList) ∧
    (0 : ℕ) < 1 ∧ (1 : ℕ) < 2 := by
  have h := c10_unrecognized_season_rank demoTermsC10 (by decide)
    "Xx 2020".toList (by decide) 2020 (by decide) (by decide) (by decide)
  refine ⟨h.1, ?_, ?_⟩
  · exact h.2.1 "Spring 2020".toList (by decide) 0 1 (by decide) (by decide)
      (by decide) (by decide) (by decide)
  · exact h.2.2 "Spring 2021".toList (by decide) 2021 1 2 (by decide)
      (by decide) (by decide) (by decide) (by decide)

/-- C9: detect_patterns accepts lapsed_threshold and repeat_threshold but
its body never reads them, so the output — which courses are flagged, their
findings, and their order — is identical for any two values of each. -/
theorem c9_lapsed_repeat_thresholds_no_influence :
    ∀ (df : List Row) (dfwT dropT incT : ℚ) (la ra lb rb : ℚ)
      (minE : ℚ) (consec lookback tterms : ℕ) (cutoff : ℚ) (rc : ℕ),
      detectPatterns df dfwT dropT incT la ra minE consec lookback tterms
        cutoff rc =
      detectPatterns df dfwT dropT incT lb rb minE consec lookback tterms
        cutoff rc := by
  intro df dfwT dropT incT la ra lb rb minE consec lookback tterms cutoff rc
  rfl

/-- C2: severity is assigned first-match-wins: immediate exactly when the
course has at least 2 Findings, or a persistence tag, or a latest rate
strictly above 1.5 times the primary threshold; moderate exactly when it
did not qualify as immediate and has a trend or spike tag; watch otherwise.
In particular every course with exactly two Findings is immediate. -/
theorem c2_severity_first_match
    (fs : List Finding) (rate thr : ℚ) :
    (classifySeverity fs rate thr = .immediate ↔
      (2 ≤ fs.length ∨ fs.any isPersistFinding = true ∨
        thr * (3 / 2) < rate)) ∧
    (classifySeverity fs rate thr = .moderate ↔
      (¬(2 ≤ fs.length ∨ fs.any isPersistFinding = true ∨
          thr * (3 / 2) < rate) ∧
        (fs.any isTrendFinding = true ∨ fs.any isSpikeFinding = true))) ∧
    (classifySeverity fs rate thr = .watch ↔
      (¬(2 ≤ fs.length ∨ fs.any isPersistFinding = true ∨
          thr * (3 / 2) < rate) ∧
        ¬(fs.any isTrendFinding = true ∨ fs.any isSpikeFinding = true))) ∧
    (fs.length = 2 → classifySeverity fs rate thr = .immediate) := by
  unfold classifySeverity
  by_cases h1 : 2 ≤ fs.length ∨ fs.any isPersistFinding = true ∨
      thr * (3 / 2) < rate
  · rw [if_pos h1]
    exact ⟨iff_of_true rfl h1,
      iff_of_false (fun h => Severity.noConfusion h) (fun hc => hc.1 h1),
      iff_of_false (fun h => Severity.noConfusion h) (fun hc => hc.1 h1),
      fun _ => rfl⟩
  · rw [if_neg h1]
    by_cases h2 : fs.any isTrendFinding = true ∨ fs.any isSpikeFinding = true
    · rw [if_pos h2]
      exact ⟨iff_of_false (fun h => Severity.noConfusion h) h1,
        iff_of_true rfl ⟨h1, h2⟩,
        iff_of_false (fun h => Severity.noConfusion h) (fun hc => hc.2 h2),
        fun hl => absurd (Or.inl (by omega)) h1⟩
    · rw [if_neg h2]
      exact ⟨iff_of_false (fun h => Severity.noConfusion h) h1,
        iff_of_false (fun h => Severity.noConfusion h) (fun hc => h2 hc.2),
        iff_of_true rfl ⟨h1, h2⟩,
        fun hl => absurd (Or.inl (by omega)) h1⟩

/-- C2 witness: a course with exactly two Findings — here a spike and a
trend, neither a persistence tag, with a latest rate far below 1.5 times
the threshold — still classifies as immediate. -/
theorem c2_severity_two_findings_witness :
    ([Finding.spike (1 / 2) (1 / 10),
      Finding.trend (1 / 10) 3 [] [] (1 / 2)] : List Finding).length = 2 ∧
    classifySeverity
      [Finding.spike (1 / 2) (1 / 10),
       Finding.trend (1 / 10) 3 [] [] (1 / 2)] 0 1 = .immediate :=
  ⟨rfl,
    (c2_severity_first_match
      [Finding.spike (1 / 2) (1 / 10),
       Finding.trend (1 / 10) 3 [] [] (1 / 2)] 0 1).2.2.2 rfl⟩

/-! ### Streak lemmas for the persistence check -/

/-- Length of the leading run of values at or above the threshold. -/
def leadRun (threshold : ℚ) : List ℚ → ℕ
  | [] => 0
  | v :: vs => if threshold ≤ v then leadRun threshold vs + 1 else 0

/-- Specification-style longest run: the maximum over all suffixes of the
length of the leading run. -/
def maxRun (threshold : ℚ) : List ℚ → ℕ
  | [] => 0
  | v :: vs => max (leadRun threshold (v :: vs)) (maxRun threshold vs)

theorem leadRun_le_maxRun (threshold : ℚ) (l : List ℚ) :
    leadRun threshold l ≤ maxRun threshold l := by
  cases l with
  | nil => exact le_refl 0
  | cons v vs => exact le_max_left _ _

theorem foldl_streakStep (threshold : ℚ) :
    ∀ (l : List ℚ) (s b : ℕ), s ≤ b →
      (l.foldl (streakStep threshold) (s, b)).2 =
        max b (max (s + leadRun threshold l) (maxRun threshold l)) := by
  intro l
  induction l with
  | nil =>
    intro s b hsb
    simp only [List.foldl_nil, leadRun, maxRun]
    omega
  | cons v vs ih =>
    intro s b hsb
    by_cases hv : threshold ≤ v
    · simp only [List.foldl_cons, streakStep, if_pos hv]
      rw [ih (s + 1) (max b (s + 1)) (le_max_right _ _)]
      simp only [leadRun, maxRun, if_pos hv]
      omega
    · simp only [List.foldl_cons, streakStep, if_neg hv]
      rw [ih 0 b (Nat.zero_le b)]
      simp only [leadRun, maxRun, if_neg hv]
      have := leadRun_le_maxRun threshold vs
      omega

/-- The streak loop of _check_persistent computes the longest run. -/
theorem bestStreak_eq_maxRun (values : List ℚ) (threshold : ℚ) :
    bestStreak values threshold = maxRun threshold values := by
  unfold bestStreak
  rw [foldl_streakStep threshold values 0 0 le_rfl]
  have := leadRun_le_maxRun threshold values
  omega

theorem leadRun_witness_decomposition (threshold : ℚ) (l : List ℚ) :
    ∃ t post, t ++ post = l ∧ (∀ v ∈ t, threshold ≤ v) ∧
      t.length = leadRun threshold l := by
  induction l with
  | nil => exact ⟨[], [], rfl, by simp, rfl⟩
  | cons v vs ih =>
    by_cases hv : threshold ≤ v
    · obtain ⟨t, post, he, hall, hlen⟩ := ih
      refine ⟨v :: t, post, by rw [List.cons_append, he], ?_, ?_⟩
      · intro w hw
        rcases List.mem_cons.mp hw with h | h
        · exact h ▸ hv
        · exact hall w h
      · simp only [List.length_cons, leadRun, if_pos hv, hlen]
    · exact ⟨[], v :: vs, rfl, by simp, by simp [leadRun, hv]⟩

theorem run_at_head_le_leadRun (threshold : ℚ) :
    ∀ (t post l : List ℚ), t ++ post = l → (∀ v ∈ t, threshold ≤ v) →
      t.length ≤ leadRun threshold l := by
  intro t
  induction t with
  | nil =>
    intro post l he hall
    simp
  | cons w t2 ih =>
    intro post l he hall
    rw [← he]
    simp only [List.cons_append, leadRun,
      if_pos (hall w (List.mem_cons_self w t2)), List.length_cons]
    have := ih post (t2 ++ post) rfl (fun v hv => hall v (List.mem_cons_of_mem w hv))
    exact Nat.add_le_add_right this 1

theorem run_le_maxRun (threshold : ℚ) :
    ∀ (l t pre post : List ℚ), pre ++ t ++ post = l →
      (∀ v ∈ t, threshold ≤ v) → t.length ≤ maxRun threshold l := by
  intro l
  induction l with
  | nil =>
    intro t pre post he hall
    rcases List.append_eq_nil.mp ((List.append_assoc pre t post) ▸ he) with ⟨h1, h2⟩
    rcases List.append_eq_nil.mp h2 with ⟨h3, h4⟩
    simp [h3]
  | cons v vs ih =>
    intro t pre post he hall
    cases pre with
    | nil =>
      simp only [List.nil_append] at he
      have h1 := run_at_head_le_leadRun threshold t post (v :: vs) he hall
      have h2 := leadRun_le_maxRun threshold (v :: vs)
      omega
    | cons x pre2 =>
      simp only [List.cons_append, List.cons.injEq] at he
      have h1 := ih t pre2 post he.2 hall
      have h2 : maxRun threshold vs ≤ maxRun threshold (v :: vs) :=
        le_max_right _ _
      omega

theorem maxRun_witness_decomposition (threshold : ℚ) (l : List ℚ) :
    ∃ t pre post, pre ++ t ++ post = l ∧ (∀ v ∈ t, threshold ≤ v) ∧
      t.length = maxRun threshold l := by
  induction l with
  | nil => exact ⟨[], [], [], rfl, by simp, rfl⟩
  | cons v vs ih =>
    rcases le_or_lt (leadRun threshold (v :: vs)) (maxRun threshold vs) with h | h
    · obtain ⟨t, pre, post, he, hall, hlen⟩ := ih
      refine ⟨t, v :: pre, post,
        by simpa using congrArg (fun l => v :: l) he, hall, ?_⟩
      rw [hlen]
      simp only [maxRun]
      omega
    · obtain ⟨t, post, he, hall, hlen⟩ :=
        leadRun_witness_decomposition threshold (v :: vs)
      refine ⟨t, [], post, by rw [List.nil_append, he], hall, ?_⟩
      rw [hlen]
      simp only [maxRun]
      omega

/-- Row with only a DFW rate, used for concrete heuristic inputs. -/
def mkValRow (q : ℚ) : Row := ⟨[], [], [], 0, some q, none, none, none, none⟩

/-- C6: the persistence check computes the length of the longest contiguous
run of present values at or above the threshold: there is a contiguous
segment of exactly that length, every all-above segment is no longer, and
the check returns a persistence Finding carrying that length exactly when
the length reaches the required streak, None otherwise (fewer present
values than the required streak always yields None, the run being at most
the number of values).  On the series 0.25, 0.30, 0.22 with threshold 0.20
a required streak of 2 yields a Finding describing a streak of 3, and a
required streak of 4 yields None. -/
theorem c6_persistence_longest_streak :
    (∀ (values : List ℚ) (threshold : ℚ),
      (∃ t pre post, pre ++ t ++ post = values ∧
        (∀ v ∈ t, threshold ≤ v) ∧
        t.length = bestStreak values threshold) ∧
      (∀ t pre post, pre ++ t ++ post = values →
        (∀ v ∈ t, threshold ≤ v) →
        t.length ≤ bestStreak values threshold)) ∧
    (∀ (rows : List Row) (threshold : ℚ) (n : ℕ),
      checkPersistent rows threshold n =
        if n ≤ bestStreak (rateValues rows) threshold then
          some (.persistent threshold (bestStreak (rateValues rows) threshold))
        else none) ∧
    checkPersistent [mkValRow (1/4), mkValRow (3/10), mkValRow (11/50)]
      (1/5) 2 = some (.persistent (1/5) 3) ∧
    checkPersistent [mkValRow (1/4), mkValRow (3/10), mkValRow (11/50)]
      (1/5) 4 = none := by
  have hchar : ∀ (values : List ℚ) (threshold : ℚ),
      (∃ t pre post, pre ++ t ++ post = values ∧
        (∀ v ∈ t, threshold ≤ v) ∧
        t.length = bestStreak values threshold) ∧
      (∀ t pre post, pre ++ t ++ post = values →
        (∀ v ∈ t, threshold ≤ v) →
        t.length ≤ bestStreak values threshold) := by
    intro values threshold
    rw [bestStreak_eq_maxRun]
    exact ⟨maxRun_witness_decomposition threshold values,
      fun t pre post he hall => run_le_maxRun threshold values t pre post he hall⟩
  have hbound : ∀ (values : List ℚ) (threshold : ℚ),
      bestStreak values threshold ≤ values.length := by
    intro values threshold
    obtain ⟨t, pre, post, he, hall, hlen⟩ := (hchar values threshold).1
    rw [← hlen, ← he]
    simp only [List.length_append]
    omega
  refine ⟨hchar, ?_, ?_, ?_⟩
  · intro rows threshold n
    unfold checkPersistent checkPersistentVals
    by_cases hn : n ≤ bestStreak (rateValues rows) threshold
    · have hlen : ¬(rateValues rows).length < n := by
        have := hbound (rateValues rows) threshold
        omega
      rw [if_neg hlen, if_pos hn]
    · by_cases hl : (rateValues rows).length < n
      · rw [if_pos hl, if_neg hn]
      · rw [if_neg hl, if_neg hn]
  · norm_num [checkPersistent, checkPersistentVals, rateValues, mkValRow,
      bestStreak, streakStep, List.filterMap, List.foldl]
  · norm_num [checkPersistent, checkPersistentVals, rateValues, mkValRow,
      bestStreak, streakStep, List.filterMap, List.foldl]

/-- C6 witness: the upper-bound component of the characterization applied
to the concrete one-element series 0.25 against threshold 0.20. -/
theorem c6_persistence_witness :
    ([] : List ℚ) ++ [(1/4 : ℚ)] ++ [] = [(1/4 : ℚ)] ∧
    (∀ v ∈ [(1/4 : ℚ)], (1/5 : ℚ) ≤ v) ∧
    [(1/4 : ℚ)].length ≤ bestStreak [(1/4 : ℚ)] (1/5) :=
  ⟨by simp, by norm_num,
    (c6_persistence_longest_streak.1 [(1/4 : ℚ)] (1/5)).2 [(1/4 : ℚ)] [] []
      (by simp) (by norm_num)⟩

/-! ### Spike lemmas -/

theorem pvariance_nonneg (l : List ℚ) : 0 ≤ pvariance l := by
  unfold pvariance
  apply div_nonneg
  · apply List.sum_nonneg
    intro x hx
    obtain ⟨y, hy, he⟩ := List.mem_map.mp hx
    rw [← he]
    positivity
  · positivity

/-- The square-free spike condition is exactly the two-standard-deviations
condition of the source, once the population variance is positive. -/
theorem spike_cond_iff {latest m varp : ℚ} (hv : 0 < varp) :
    (m < latest ∧ 4 * varp < (latest - m) ^ 2) ↔
    ((m : ℝ) + 2 * Real.sqrt (varp : ℝ) < (latest : ℝ)) := by
  have hv' : (0 : ℝ) < (varp : ℝ) := by exact_mod_cast hv
  constructor
  · rintro ⟨h1, h2⟩
    have h1' : (m : ℝ) < (latest : ℝ) := by exact_mod_cast h1
    have h2' : 4 * (varp : ℝ) < ((latest : ℝ) - (m : ℝ)) ^ 2 := by
      exact_mod_cast h2
    have h4 : Real.sqrt (4 * (varp : ℝ)) < (latest : ℝ) - (m : ℝ) :=
      (Real.sqrt_lt' (by linarith)).mpr h2'
    have h5 : Real.sqrt (4 * (varp : ℝ)) = 2 * Real.sqrt (varp : ℝ) := by
      rw [show (4 : ℝ) * (varp : ℝ) = (2 : ℝ) ^ 2 * (varp : ℝ) by ring,
        Real.sqrt_mul (by positivity), Real.sqrt_sq (by norm_num)]
    linarith
  · intro h
    have hs : 0 < Real.sqrt (varp : ℝ) := Real.sqrt_pos.mpr hv'
    have h1' : (m : ℝ) < (latest : ℝ) := by linarith
    refine ⟨by exact_mod_cast h1', ?_⟩
    have h6 : 2 * Real.sqrt (varp : ℝ) < (latest : ℝ) - (m : ℝ) := by linarith
    have h7 : (2 * Real.sqrt (varp : ℝ)) ^ 2 < ((latest : ℝ) - (m : ℝ)) ^ 2 :=
      pow_lt_pow_left₀ h6 (by positivity) (by norm_num)
    have h8 : (2 * Real.sqrt (varp : ℝ)) ^ 2 = 4 * (varp : ℝ) := by
      rw [mul_pow, Real.sq_sqrt hv'.le]
      norm_num
    have h9 : 4 * (varp : ℝ) < ((latest : ℝ) - (m : ℝ)) ^ 2 := by linarith
    exact_mod_cast h9

/-- Concrete series on which the spike check fires: 0.05, 0.07, 0.04,
0.06, 0.50. -/
def demoSpikeRows : List Row :=
  [mkValRow (1/20), mkValRow (7/100), mkValRow (1/25), mkValRow (3/50),
   mkValRow (1/2)]

/-- The same series without its final value: no trailing anomaly. -/
def demoNoSpikeRows : List Row :=
  [mkValRow (1/20), mkValRow (7/100), mkValRow (1/25), mkValRow (3/50)]

/-- C5: the spike check returns None with fewer than 3 present values or a
zero-variance prior; otherwise it emits a spike Finding carrying the latest
value and the prior mean exactly when the latest value strictly exceeds the
prior mean plus 2 prior population standard deviations (the square root of
the prior population variance), and None otherwise.  The series 0.05, 0.07,
0.04, 0.06, 0.50 produces a spike Finding; dropping the final value
produces none. -/
theorem c5_spike_two_sigma :
    (∀ rows : List Row,
      ((rateValues rows).length < 3 ∨
        pvariance (rateValues rows).dropLast = 0) →
      checkSpike rows = none) ∧
    (∀ rows : List Row, 3 ≤ (rateValues rows).length →
      pvariance (rateValues rows).dropLast ≠ 0 →
      ((checkSpike rows =
          some (.spike ((rateValues rows).getLastD 0)
            (mean (rateValues rows).dropLast)) ↔
        (mean (rateValues rows).dropLast : ℝ) +
          2 * Real.sqrt (pvariance (rateValues rows).dropLast : ℝ) <
          ((rateValues rows).getLastD 0 : ℝ)) ∧
       (checkSpike rows = none ↔
        ¬((mean (rateValues rows).dropLast : ℝ) +
          2 * Real.sqrt (pvariance (rateValues rows).dropLast : ℝ) <
          ((rateValues rows).getLastD 0 : ℝ))))) ∧
    checkSpike demoSpikeRows = some (.spike (1/2) (11/200)) ∧
    checkSpike demoNoSpikeRows = none := by
  have hmain : ∀ rows : List Row, 3 ≤ (rateValues rows).length →
      pvariance (rateValues rows).dropLast ≠ 0 →
      checkSpike rows =
        if (mean (rateValues rows).dropLast < (rateValues rows).getLastD 0 ∧
            4 * pvariance (rateValues rows).dropLast <
              ((rateValues rows).getLastD 0 -
                mean (rateValues rows).dropLast) ^ 2) then
          some (.spike ((rateValues rows).getLastD 0)
            (mean (rateValues rows).dropLast))
        else none := by
    intro rows h3 hv
    unfold checkSpike checkSpikeVals
    rw [if_neg (by omega), if_neg hv]
  refine ⟨?_, ?_, ?_, ?_⟩
  · intro rows h
    unfold checkSpike checkSpikeVals
    rcases h with h | h
    · rw [if_pos h]
    · by_cases h3 : (rateValues rows).length < 3
      · rw [if_pos h3]
      · rw [if_neg h3, if_pos h]
  · intro rows h3 hv
    have hpos : 0 < pvariance (rateValues rows).dropLast :=
      lt_of_le_of_ne (pvariance_nonneg _) (Ne.symm hv)
    rw [hmain rows h3 hv]
    by_cases hc : (mean (rateValues rows).dropLast <
        (rateValues rows).getLastD 0 ∧
      4 * pvariance (rateValues rows).dropLast <
        ((rateValues rows).getLastD 0 - mean (rateValues rows).dropLast) ^ 2)
    · rw [if_pos hc]
      have hr := (spike_cond_iff hpos).mp hc
      exact ⟨iff_of_true rfl hr,
        iff_of_false (fun h => Option.noConfusion h) (fun hn => hn hr)⟩
    · rw [if_neg hc]
      have hr : ¬((mean (rateValues rows).dropLast : ℝ) +
          2 * Real.sqrt (pvariance (rateValues rows).dropLast : ℝ) <
          ((rateValues rows).getLastD 0 : ℝ)) :=
        fun h => hc ((spike_cond_iff hpos).mpr h)
      exact ⟨iff_of_false (fun h => Option.noConfusion h) hr,
        iff_of_true rfl hr⟩
  · norm_num [checkSpike, checkSpikeVals, rateValues, demoSpikeRows, mkValRow,
      mean, pvariance, List.filterMap, List.dropLast]
  · norm_num [checkSpike, checkSpikeVals, rateValues, demoNoSpikeRows,
      mkValRow, mean, pvariance, List.filterMap, List.dropLast]

/-- C5 witness: the None branch of the theorem applied to a two-value
series, whose present-value count is below 3. -/
theorem c5_spike_witness :
    ((rateValues [mkValRow (1/10), mkValRow (1/5)]).length < 3 ∨
      pvariance (rateValues [mkValRow (1/10), mkValRow (1/5)]).dropLast = 0) ∧
    checkSpike [mkValRow (1/10), mkValRow (1/5)] = none :=
  ⟨Or.inl (by norm_num [rateValues, mkValRow, List.filterMap]),
    c5_spike_two_sigma.1 [mkValRow (1/10), mkValRow (1/5)]
      (Or.inl (by norm_num [rateValues, mkValRow, List.filterMap]))⟩

/-! ### Trend lemmas: the computed slope is the least-squares fit -/

theorem sum_map_zip_fst (f : ℚ → ℚ) :
    ∀ (xs ys : List ℚ), xs.length = ys.length →
      ((xs.zip ys).map (fun p => f p.1)).sum = (xs.map f).sum := by
  intro xs
  induction xs with
  | nil => intro ys h; simp
  | cons x xs2 ih =>
    intro ys h
    cases ys with
    | nil => simp at h
    | cons y ys2 =>
      simp only [List.zip_cons_cons, List.map_cons, List.sum_cons]
      rw [ih ys2 (by simpa using h)]

theorem sum_sq_affine (b : ℚ) :
    ∀ ps : List (ℚ × ℚ),
      (ps.map (fun p => (p.2 - b * p.1) ^ 2)).sum =
        (ps.map (fun p => p.2 ^ 2)).sum -
          2 * b * (ps.map (fun p => p.1 * p.2)).sum +
          b ^ 2 * (ps.map (fun p => p.1 ^ 2)).sum := by
  intro ps
  induction ps with
  | nil => simp
  | cons p ps2 ih =>
    simp only [List.map_cons, List.sum_cons]
    rw [ih]
    ring

theorem sum_sq_nonneg_members (l : List ℚ) (hl : ∀ x ∈ l, 0 ≤ x)
    (hs : l.sum = 0) : ∀ x ∈ l, x = 0 := by
  induction l with
  | nil => intro x hx; simp at hx
  | cons a l2 ih =>
    have ha : 0 ≤ a := hl a (List.mem_cons_self a l2)
    have hl2 : ∀ x ∈ l2, 0 ≤ x := fun x hx => hl x (List.mem_cons_of_mem a hx)
    have hsum2 : 0 ≤ l2.sum := List.sum_nonneg hl2
    rw [List.sum_cons] at hs
    have ha0 : a = 0 := by linarith
    have hs2 : l2.sum = 0 := by linarith
    intro x hx
    rcases List.mem_cons.mp hx with h | h
    · exact h ▸ ha0
    · exact ih hl2 hs2 x h

/-- The centered second moment of the indices 0..n-1 about any point is
positive once n is at least 2. -/
theorem index_moment_pos {n : ℕ} (hn : 2 ≤ n) (c : ℚ) :
    0 < (((List.range n).map (Nat.cast : ℕ → ℚ)).map
      (fun x => (x - c) ^ 2)).sum := by
  set l := ((List.range n).map (Nat.cast : ℕ → ℚ)).map (fun x => (x - c) ^ 2)
    with hl
  have hnn : ∀ x ∈ l, 0 ≤ x := by
    intro x hx
    rw [hl] at hx
    obtain ⟨y, hy, he⟩ := List.mem_map.mp hx
    rw [← he]
    positivity
  rcases lt_or_le 0 l.sum with h | h
  · exact h
  · exfalso
    have hs0 : l.sum = 0 := le_antisymm h (List.sum_nonneg hnn)
    have hall := sum_sq_nonneg_members l hnn hs0
    have h0m : ((0 : ℚ) - c) ^ 2 ∈ l := by
      rw [hl]
      refine List.mem_map.mpr ⟨0, ?_, rfl⟩
      exact List.mem_map.mpr
        ⟨(0 : ℕ), List.mem_range.mpr (by omega), by norm_num⟩
    have h1m : ((1 : ℚ) - c) ^ 2 ∈ l := by
      rw [hl]
      refine List.mem_map.mpr ⟨1, ?_, rfl⟩
      exact List.mem_map.mpr
        ⟨(1 : ℕ), List.mem_range.mpr (by omega), by norm_num⟩
    have e0 := hall _ h0m
    have e1 := hall _ h1m
    have c0 : c = 0 := by nlinarith [sq_nonneg ((0 : ℚ) - c)]
    have c1 : c = 1 := by nlinarith [sq_nonneg ((1 : ℚ) - c)]
    exact absurd (c0 ▸ c1) (by norm_num)

/-- C7: the trend check returns None when the last trend_terms rows hold
fewer than 3 present values; otherwise it emits a trend Finding exactly
when the fitted slope strictly exceeds the cutoff and the latest present
value is at least 0.8 times the threshold.  The fitted slope is the
ordinary least-squares slope: among all lines through the centered data,
the one with the computed slope minimizes the sum of squared residuals of
the present values against their indices 0..n-1. -/
theorem c7_trend_ols_characterization :
    (∀ (rows : List Row) (threshold : ℚ) (trendTerms : ℕ) (cutoff : ℚ),
      (rateValues (pdTail trendTerms rows)).length < 3 →
      checkWorseningTrend rows threshold trendTerms cutoff = none) ∧
    (∀ (rows : List Row) (threshold : ℚ) (trendTerms : ℕ) (cutoff : ℚ),
      3 ≤ (rateValues (pdTail trendTerms rows)).length →
      ((checkWorseningTrend rows threshold trendTerms cutoff =
          some (.trend (olsSlope (rateValues (pdTail trendTerms rows)))
            (rateValues (pdTail trendTerms rows)).length
            (((pdTail trendTerms rows).map (fun r => r.term)).headD [])
            (((pdTail trendTerms rows).map (fun r => r.term)).getLastD [])
            ((rateValues (pdTail trendTerms rows)).getLastD 0)) ↔
        (cutoff < olsSlope (rateValues (pdTail trendTerms rows)) ∧
          threshold * (8 / 10) ≤
            (rateValues (pdTail trendTerms rows)).getLastD 0)) ∧
       (checkWorseningTrend rows threshold trendTerms cutoff = none ↔
        ¬(cutoff < olsSlope (rateValues (pdTail trendTerms rows)) ∧
          threshold * (8 / 10) ≤
            (rateValues (pdTail trendTerms rows)).getLastD 0)))) ∧
    (∀ (ys : List ℚ) (b : ℚ), 2 ≤ ys.length →
      ((((List.range ys.length).map (Nat.cast : ℕ → ℚ)).zip ys).map
        (fun p => ((p.2 - mean ys) -
          olsSlope ys *
            (p.1 - mean ((List.range ys.length).map (Nat.cast : ℕ → ℚ)))) ^ 2)).sum ≤
      ((((List.range ys.length).map (Nat.cast : ℕ → ℚ)).zip ys).map
        (fun p => ((p.2 - mean ys) -
          b * (p.1 - mean ((List.range ys.length).map (Nat.cast : ℕ → ℚ)))) ^ 2)).sum) := by
  refine ⟨?_, ?_, ?_⟩
  · intro rows threshold trendTerms cutoff h
    unfold checkWorseningTrend
    rw [if_pos h]
  · intro rows threshold trendTerms cutoff h3
    unfold checkWorseningTrend
    rw [if_neg (by omega)]
    by_cases hc : cutoff < olsSlope (rateValues (pdTail trendTerms rows)) ∧
        threshold * (8 / 10) ≤ (rateValues (pdTail trendTerms rows)).getLastD 0
    · rw [if_pos hc]
      exact ⟨iff_of_true rfl hc,
        iff_of_false (fun h => Option.noConfusion h) (fun hn => hn hc)⟩
    · rw [if_neg hc]
      exact ⟨iff_of_false (fun h => Option.noConfusion h) hc,
        iff_of_true rfl hc⟩
  · intro ys b hn
    set xs : List ℚ := (List.range ys.length).map (Nat.cast : ℕ → ℚ) with hxs
    set xbar := mean xs with hxbar
    set ybar := mean ys with hybar
    have hxslen : xs.length = ys.length := by
      rw [hxs, List.length_map, List.length_range]
    set ps : List (ℚ × ℚ) :=
      (xs.zip ys).map (fun p => (p.1 - xbar, p.2 - ybar)) with hps
    have hrw : ∀ c : ℚ,
        ((xs.zip ys).map (fun p => ((p.2 - ybar) - c * (p.1 - xbar)) ^ 2)).sum =
        (ps.map (fun p => (p.2 - c * p.1) ^ 2)).sum := by
      intro c
      rw [hps, List.map_map]
      rfl
    have hB : (ps.map (fun p => p.1 * p.2)).sum =
        ((xs.zip ys).map (fun p => (p.1 - xbar) * (p.2 - ybar))).sum := by
      rw [hps, List.map_map]
      rfl
    have hC : (ps.map (fun p => p.1 ^ 2)).sum =
        (xs.map (fun x => (x - xbar) ^ 2)).sum := by
      rw [hps, List.map_map]
      exact sum_map_zip_fst (fun x => (x - xbar) ^ 2) xs ys hxslen
    have hCpos : 0 < (ps.map (fun p => p.1 ^ 2)).sum := by
      rw [hC]
      exact index_moment_pos (by omega) xbar
    have hslope : olsSlope ys =
        (ps.map (fun p => p.1 * p.2)).sum / (ps.map (fun p => p.1 ^ 2)).sum := by
      rw [hB, hC]
      rfl
    rw [hrw (olsSlope ys), hrw b, sum_sq_affine, sum_sq_affine, hslope]
    set B := (ps.map (fun p => p.1 * p.2)).sum with hBdef
    set C := (ps.map (fun p => p.1 ^ 2)).sum with hCdef
    have key : (fun q : ℚ =>
        (ps.map (fun p => p.2 ^ 2)).sum - 2 * q * B + q ^ 2 * C) b -
        (fun q : ℚ =>
        (ps.map (fun p => p.2 ^ 2)).sum - 2 * q * B + q ^ 2 * C) (B / C) =
        C * (b - B / C) ^ 2 := by
      have hC0 : C ≠ 0 := ne_of_gt hCpos
      field_simp
      ring
    have hnn : 0 ≤ C * (b - B / C) ^ 2 := by positivity
    simp only at key
    linarith

/-- C7 witness: the None branch applied to an empty table, which holds
fewer than 3 present values in any window. -/
theorem c7_trend_witness :
    (rateValues (pdTail 4 ([] : List Row))).length < 3 ∧
    checkWorseningTrend ([] : List Row) (1/5) 4 (1/100) = none :=
  ⟨by norm_num [rateValues, pdTail, List.filterMap],
    c7_trend_ols_characterization.1 [] (1/5) 4 (1/100)
      (by norm_num [rateValues, pdTail, List.filterMap])⟩

/-- C8: a zero denominator makes the computed rate missing, never 0: a zero
grades_used count gives a missing DFW rate, zero enrollments give missing
drop and repeat rates, and when both are zero the incomplete rates are
missing too.  Every heuristic excludes missing rate values from
computation: a row whose DFW rate is missing can be inserted anywhere
without changing the sequence of present values, the persistence result,
or the spike result, and the trend decision is a function of the present
values of its window alone. -/
theorem c8_zero_denominator_missing_excluded :
    (∀ sr : SectionRecord, sr.gradesUsed = 0 →
      (computeMetrics sr).dfwRate = none) ∧
    (∀ sr : SectionRecord, sr.enrollments = 0 →
      (computeMetrics sr).dropRate = none ∧
      (computeMetrics sr).repeatRate = none) ∧
    (∀ sr : SectionRecord, sr.gradesUsed = 0 → sr.enrollments = 0 →
      (computeMetrics sr).incompleteRate = none ∧
      (computeMetrics sr).lapsedIncompleteRate = none) ∧
    (∀ (l₁ l₂ : List Row) (r : Row), r.dfwRate = none →
      rateValues (l₁ ++ r :: l₂) = rateValues (l₁ ++ l₂)) ∧
    (∀ (l₁ l₂ : List Row) (r : Row) (threshold : ℚ) (n : ℕ),
      r.dfwRate = none →
      checkPersistent (l₁ ++ r :: l₂) threshold n =
        checkPersistent (l₁ ++ l₂) threshold n) ∧
    (∀ (l₁ l₂ : List Row) (r : Row), r.dfwRate = none →
      checkSpike (l₁ ++ r :: l₂) = checkSpike (l₁ ++ l₂)) ∧
    (∀ (rows₁ rows₂ : List Row) (threshold : ℚ) (trendTerms : ℕ)
      (cutoff : ℚ),
      rateValues (pdTail trendTerms rows₁) =
        rateValues (pdTail trendTerms rows₂) →
      (checkWorseningTrend rows₁ threshold trendTerms cutoff).isSome =
        (checkWorseningTrend rows₂ threshold trendTerms cutoff).isSome) := by
  have hins : ∀ (l₁ l₂ : List Row) (r : Row), r.dfwRate = none →
      rateValues (l₁ ++ r :: l₂) = rateValues (l₁ ++ l₂) := by
    intro l₁ l₂ r hr
    simp [rateValues, List.filterMap_append, List.filterMap_cons, hr]
  refine ⟨?_, ?_, ?_, hins, ?_, ?_, ?_⟩
  · intro sr h
    simp [computeMetrics, h]
  · intro sr h
    constructor <;> simp [computeMetrics, h]
  · intro sr hg he
    constructor <;> simp [computeMetrics, hg, he]
  · intro l₁ l₂ r threshold n hr
    unfold checkPersistent
    rw [hins l₁ l₂ r hr]
  · intro l₁ l₂ r hr
    unfold checkSpike
    rw [hins l₁ l₂ r hr]
  · intro rows₁ rows₂ threshold trendTerms cutoff h
    simp only [checkWorseningTrend]
    rw [h]
    split_ifs <;> rfl

/-- Row whose DFW rate is missing, with arbitrary other fields. -/
def missingRateRow : Row := ⟨[], [], "Fall 2020".toList, 30, none,
  some (1/10), none, none, some 1⟩

/-- C8 witness: the theorem applied to a concrete record with a zero DFW
denominator, and to a concrete insertion of a missing-rate row into a
concrete series. -/
theorem c8_missing_excluded_witness :
    ({ enrollments := 30, gradesUsed := 0, dfwCount := 0, dropped := 1,
       incompleteI := 0, incompleteEI := 0, incompletePI := 0,
       lapsedF := 0, repeats := 0 } : SectionRecord).gradesUsed = 0 ∧
    (computeMetrics
      { enrollments := 30, gradesUsed := 0, dfwCount := 0, dropped := 1,
        incompleteI := 0, incompleteEI := 0, incompletePI := 0,
        lapsedF := 0, repeats := 0 }).dfwRate = none ∧
    missingRateRow.dfwRate = none ∧
    checkPersistent ([mkValRow (1/4)] ++ missingRateRow :: [mkValRow (3/10)])
      (1/5) 2 =
      checkPersistent ([mkValRow (1/4)] ++ [mkValRow (3/10)]) (1/5) 2 := by
  have h := c8_zero_denominator_missing_excluded
  refine ⟨rfl, h.1 _ rfl, rfl, ?_⟩
  exact h.2.2.2.2.1 [mkValRow (1/4)] [mkValRow (3/10)] missingRateRow
    (1/5) 2 rfl

/-! ### Recency post-filter lemmas -/

theorem uniqueKeepFirst_cons_ne_nil [DecidableEq α] (x : α) (xs : List α) :
    uniqueKeepFirst (x :: xs) ≠ [] := by
  simp [uniqueKeepFirst, uniqueKeepFirstAux]

/-- C1 (amended): a flagged course appears in the final output exactly when
it was produced by per-course detection and the global maximum term rank of
the entire unfiltered input minus its latest term's rank is strictly less
than recency_terms — that is, the post-filter drops a flagged course as
soon as its latest term is at least recency_terms (not strictly more than
recency_terms) behind the global maximum; in particular a course at
exactly recency_terms behind is dropped. -/
theorem c1_recency_filter_amended :
    ∀ (df : List Row) (dfwT dropT incT lapsedT repeatT minE : ℚ)
      (consec lookback tt : ℕ) (cutoff : ℚ) (rc : ℕ) (r : ResultRow),
      r ∈ detectPatterns df dfwT dropT incT lapsedT repeatT minE consec
          lookback tt cutoff rc ↔
        (r ∈ detectResults df dfwT dropT incT minE consec lookback tt
            cutoff ∧
          ((((buildTermOrder (uniqueKeepFirst (df.map (fun x => x.term)))).map
                (fun p => p.2)).foldl max 0 : ℤ) -
              (((lookupRank (buildTermOrder (uniqueKeepFirst
                  (df.map (fun x => x.term)))) r.latestTerm).getD 0 : ℕ) : ℤ) <
            (rc : ℤ))) := by
  intro df dfwT dropT incT lapsedT repeatT minE consec lookback tt cutoff rc r
  unfold detectPatterns
  rw [(List.perm_insertionSort descRateLe _).mem_iff]
  simp only [recencyFilter]
  by_cases hm : buildTermOrder (uniqueKeepFirst (df.map (fun x => x.term))) = []
  · rw [if_pos hm]
    have hdf : df = [] := by
      cases df with
      | nil => rfl
      | cons a l =>
        exfalso
        have h1 : uniqueKeepFirst ((a :: l).map (fun x => x.term)) ≠ [] := by
          rw [List.map_cons]
          exact uniqueKeepFirst_cons_ne_nil _ _
        have h2 : List.insertionSort termLe
            (uniqueKeepFirst ((a :: l).map (fun x => x.term))) ≠ [] := by
          intro he
          apply h1
          have hl := (List.perm_insertionSort termLe
            (uniqueKeepFirst ((a :: l).map (fun x => x.term)))).length_eq
          rw [he] at hl
          exact List.length_eq_zero.mp hl.symm
        unfold buildTermOrder at hm
        cases hs : List.insertionSort termLe
            (uniqueKeepFirst ((a :: l).map (fun x => x.term))) with
        | nil => exact h2 hs
        | cons b bs =>
          rw [hs] at hm
          exact List.noConfusion hm
    subst hdf
    have hres : detectResults ([] : List Row) dfwT dropT incT minE consec
        lookback tt cutoff = [] := rfl
    rw [hres]
    simp
  · rw [if_neg hm]
    rw [List.mem_filter]
    simp only [decide_eq_true_eq]

/-- Course A: one term, rank 0, flagged by co-occurring high DFW and drop
rates. -/
def rowA : Row :=
  ⟨"A".toList, "1".toList, "Spring 2020".toList, 25, some (1/2), some (1/2),
   some 0, some 0, some 1⟩

/-- Course B at a given term: low, constant rates, never flagged. -/
def rowB (t : Str) : Row :=
  ⟨"B".toList, "1".toList, t, 25, some (1/100), some (1/100), some 0, some 0,
   some 1⟩

/-- Table whose only flagged course has its latest term exactly
recency_terms (4) ranks behind the global maximum term rank. -/
def demoDfC1 : List Row :=
  [rowA, rowB "Summer 2020".toList, rowB "Fall 2020".toList,
   rowB "Spring 2021".toList, rowB "Summer 2021".toList]

/-- C1 counterexample: with the default configuration (recency_terms = 4),
course A is flagged by per-course detection, its latest term rank is 0
against a global maximum of 4 — a gap of exactly recency_terms, not more
than recency_terms — yet detect_patterns drops it and returns an empty
result: the post-filter drops at a gap of at least recency_terms, and a
course at exactly (global maximum - recency_terms) is not kept. -/
theorem c1_recency_counterexample :
    (detectResults demoDfC1 (1/5) (1/10) (1/20) 20 2 6 4 (1/100)).map
        (fun r => (r.subject, r.latestTerm)) =
      [("A".toList, "Spring 2020".toList)] ∧
    (((buildTermOrder (uniqueKeepFirst (demoDfC1.map (fun x => x.term)))).map
        (fun p => p.2)).foldl max 0) = 4 ∧
    (lookupRank (buildTermOrder (uniqueKeepFirst
        (demoDfC1.map (fun x => x.term)))) "Spring 2020".toList).getD 0 = 0 ∧
    ¬((4 : ℤ) - (0 : ℤ) > (4 : ℤ)) ∧
    detectPatterns demoDfC1 (1/5) (1/10) (1/20) (1/50) (1/10) 20 2 6 4
      (1/100) 4 = [] := by
  have hm : buildTermOrder (uniqueKeepFirst (demoDfC1.map (fun x => x.term))) =
      [("Spring 2020".toList, 0), ("Summer 2020".toList, 1),
       ("Fall 2020".toList, 2), ("Spring 2021".toList, 3),
       ("Summer 2021".toList, 4)] := by decide
  have hres : detectResults demoDfC1 (1/5) (1/10) (1/20) 20 2 6 4 (1/100) =
      [{ subject := "A".toList, catalog := "1".toList,
         latestDfwRate := some (1/2), latestDropRate := some (1/2),
         latestIncompleteRate := some 0, latestRepeatRate := some 0,
         latestEnrollments := 25, avgEnrollments := 25,
         latestNumSections := some 1,
         reasons := [.coOccurring true true false],
         latestTerm := "Spring 2020".toList }] := by
    simp only [detectResults, hm]
    norm_num +decide [demoDfC1, rowA, rowB, processCourse, checkPersistent,
      checkPersistentVals, checkWorseningTrend, checkSpike, checkSpikeVals,
      checkCoOccurring, highRate, rateValues, bestStreak, streakStep, mean,
      pvariance, olsSlope, pdTail, groupRows, uniqueKeepFirst,
      uniqueKeepFirstAux, lookupRank, List.insertionSort, List.orderedInsert,
      List.filter_cons, List.filter_nil, List.filterMap, List.reduceOption,
      List.getLastD, List.headD, List.foldl, List.range_succ, List.foldr,
      rowRankLe, pairLe, pairLtB, strLt, emptyRow, decide_eq_true_eq]
  refine ⟨?_, by rw [hm]; rfl, by rw [hm]; rfl, by omega, ?_⟩
  · rw [hres]
    rfl
  · unfold detectPatterns
    rw [hres]
    simp only [recencyFilter, hm]
    norm_num +decide [lookupRank, List.insertionSort, List.foldl,
      decide_eq_true_eq]

end PantherMetrics
